import Mathlib

/-!
# Verification of `agent_200.c` (Connect-Four move-selection agent)

Shallow embedding of the C source: the board is a function from (row, column)
to the cell value (an `Int`, as in C), column fill heights are natural numbers,
and the player to move is an `Int`.  Machine `int` values are modelled as
unbounded integers; all values arising in the program stay far inside the
32-bit range, and the `INT_MIN` / `INT_MAX` sentinels are kept as the literal
constants the C source uses.
-/

namespace Agent200

/-- ROWS constant from the C source (`#define ROWS 6`). -/
def ROWS : Nat := 6

/-- COLS constant from the C source (`#define COLS 7`). -/
def COLS : Nat := 7

/-- MAX_DEPTH constant from the C source (`#define MAX_DEPTH 6`). -/
def MAX_DEPTH : Nat := 6

/-- The C constant `INT_MIN` for 32-bit int. -/
def intMin : Int := -2147483648

/-- The C constant `INT_MAX` for 32-bit int. -/
def intMax : Int := 2147483647

/-- The `State` struct of the C source: board cells, per-column next free row
(`top`), and the player about to move. -/
structure State where
  board : Nat → Nat → Int
  top : Nat → Nat
  player : Int

/-- The row-major traversal order of the two nested `for` loops over the
board: pairs `(i, j)` with `i` the row and `j` the column. -/
def scanPairs : List (Nat × Nat) :=
  (List.range ROWS).flatMap (fun i => (List.range COLS).map (fun j => (i, j)))

/-- `get_valid_moves` from the C source: the columns `j` with `top[j] < ROWS`,
in ascending order. -/
def get_valid_moves (s : State) : List Nat :=
  (List.range COLS).filter (fun j => decide (s.top j < ROWS))

/-- `apply_move` from the C source: place the moving player's stone at
`(top[move], move)`, increment `top[move]`, switch the player. -/
def apply_move (s : State) (move : Nat) : State :=
  { board := fun i j => if i = s.top move ∧ j = move then s.player else s.board i j,
    top := fun j => if j = move then s.top move + 1 else s.top j,
    player := 3 - s.player }

/-- One iteration of the scanning loop body of `check_winner`: at cell
`(i, j)`, if the cell is non-empty and one of the four forward directions
(horizontal, vertical, right diagonal, left diagonal) holds four equal
stones within bounds, report that cell's player. -/
def lineAt (s : State) (i j : Nat) : Option Int :=
  if s.board i j = 0 then none
  else if j + 3 < COLS ∧ s.board i j = s.board i (j+1) ∧
      s.board i j = s.board i (j+2) ∧ s.board i j = s.board i (j+3) then some (s.board i j)
  else if i + 3 < ROWS ∧ s.board i j = s.board (i+1) j ∧
      s.board i j = s.board (i+2) j ∧ s.board i j = s.board (i+3) j then some (s.board i j)
  else if i + 3 < ROWS ∧ j + 3 < COLS ∧ s.board i j = s.board (i+1) (j+1) ∧
      s.board i j = s.board (i+2) (j+2) ∧ s.board i j = s.board (i+3) (j+3) then some (s.board i j)
  else if i + 3 < ROWS ∧ 3 ≤ j ∧ s.board i j = s.board (i+1) (j-1) ∧
      s.board i j = s.board (i+2) (j-2) ∧ s.board i j = s.board (i+3) (j-3) then some (s.board i j)
  else none

/-- `check_winner` from the C source: scan all cells in row-major order and
return the first four-in-a-row player found; with none found, return `-1`
(draw) when no column can take a stone, else `0` (game in progress). -/
def check_winner (s : State) : Int :=
  match scanPairs.findSome? (fun pr => lineAt s pr.1 pr.2) with
  | some p => p
  | none => if (List.range COLS).all (fun j => decide (ROWS ≤ s.top j)) then -1 else 0

/-- `is_terminal` from the C source. -/
def is_terminal (s : State) : Bool :=
  check_winner s != 0

/-- `evaluate_state` from the C source: saturating scores on terminal results,
otherwise the stone-count difference computed by a single scan with an
`else if` for the opponent's count. -/
def evaluate_state (s : State) (root_player : Int) : Int :=
  if check_winner s = root_player then 100000
  else if check_winner s = 3 - root_player then -100000
  else if check_winner s = -1 then 0
  else
    (scanPairs.foldl (fun acc pr =>
      if s.board pr.1 pr.2 = root_player then (acc.1 + 1, acc.2)
      else if s.board pr.1 pr.2 = 3 - root_player then (acc.1, acc.2 + 1)
      else acc) ((0 : Int), (0 : Int))).1 -
    (scanPairs.foldl (fun acc pr =>
      if s.board pr.1 pr.2 = root_player then (acc.1 + 1, acc.2)
      else if s.board pr.1 pr.2 = 3 - root_player then (acc.1, acc.2 + 1)
      else acc) ((0 : Int), (0 : Int))).2

/-- `if (score > value) value = score;` from the C source, as a function of
the old value and the candidate. -/
def imax (value score : Int) : Int :=
  if score > value then score else value

/-- `if (score < value) value = score;` from the C source. -/
def imin (value score : Int) : Int :=
  if score < value then score else value

/-- The maximizing `for` loop of `alphabeta`: fold over the remaining moves,
raising `value` and `alpha`, breaking on `alpha >= beta`.  `f` is the
recursive call at one less depth (as a minimizing node). -/
def abMaxLoop (f : State → Int → Int → Int) (s : State) :
    List Nat → Int → Int → Int → Int
  | [], value, _, _ => value
  | m :: ms, value, alpha, beta =>
    if beta ≤ imax alpha (imax value (f (apply_move s m) alpha beta)) then
      imax value (f (apply_move s m) alpha beta)
    else
      abMaxLoop f s ms (imax value (f (apply_move s m) alpha beta))
        (imax alpha (imax value (f (apply_move s m) alpha beta))) beta

/-- The minimizing `for` loop of `alphabeta`: fold over the remaining moves,
lowering `value` and `beta`, breaking on `alpha >= beta`. -/
def abMinLoop (f : State → Int → Int → Int) (s : State) :
    List Nat → Int → Int → Int → Int
  | [], value, _, _ => value
  | m :: ms, value, alpha, beta =>
    if imin beta (imin value (f (apply_move s m) alpha beta)) ≤ alpha then
      imin value (f (apply_move s m) alpha beta)
    else
      abMinLoop f s ms (imin value (f (apply_move s m) alpha beta))
        alpha (imin beta (imin value (f (apply_move s m) alpha beta)))

/-- `alphabeta` from the C source.  The C function tests
`depth == 0 || winner != 0` first; with depth `0` both sides return the
static evaluation, so the `0` case returns it directly.  The remaining
depth is a natural number: every call the program makes uses a
non-negative depth. -/
def alphabeta : Nat → State → Int → Int → Bool → Int → Int
  | 0, s, _, _, _, rp => evaluate_state s rp
  | Nat.succ d, s, alpha, beta, maximizing, rp =>
    if check_winner s ≠ 0 then evaluate_state s rp
    else if get_valid_moves s = [] then evaluate_state s rp
    else if maximizing then
      abMaxLoop (fun c a b => alphabeta d c a b false rp) s
        (get_valid_moves s) intMin alpha beta
    else
      abMinLoop (fun c a b => alphabeta d c a b true rp) s
        (get_valid_moves s) intMax alpha beta

/-- The root loop of `alphabeta_search`: track the best move and best value,
replacing them only on a strict improvement. -/
def searchLoop (root : State) (depth : Nat) (rp : Int) :
    List Nat → Int → Int → Int
  | [], best_move, _ => best_move
  | m :: ms, best_move, best_value =>
    if alphabeta (depth - 1) (apply_move root m) intMin intMax false rp > best_value then
      searchLoop root depth rp ms (m : Int)
        (alphabeta (depth - 1) (apply_move root m) intMin intMax false rp)
    else
      searchLoop root depth rp ms best_move best_value

/-- `alphabeta_search` from the C source: evaluate each legal root move with
the full window at one less depth as a minimizing node; start from
`best_move = -1`, `best_value = INT_MIN`. -/
def alphabeta_search (root : State) (depth : Nat) (rp : Int) : Int :=
  searchLoop root depth rp (get_valid_moves root) (-1) intMin

/-- `stack_name` from the C source: `'A' + i`. -/
def stack_name (i : Nat) : Char :=
  Char.ofNat (65 + i)

/-- The value `alphabeta_search` assigns to one legal root move. -/
def rootVal (root : State) (depth : Nat) (rp : Int) (m : Nat) : Int :=
  alphabeta (depth - 1) (apply_move root m) intMin intMax false rp

/-- Board built from the row-major cell list read by `main`. -/
def boardOfCells (cells : List Int) : Nat → Nat → Int :=
  fun i j => cells.getD (i * COLS + j) 0

/-- The per-column stone count `main` computes into `top[j]`: the number of
rows `i < ROWS` with a non-zero cell in column `j`. -/
def colCount (b : Nat → Nat → Int) (j : Nat) : Nat :=
  ((List.range ROWS).filter (fun i => b i j != 0)).length

/-- The root state `main` constructs: the board as read, tops derived by
counting non-zero cells per column, and the requesting player to move. -/
def initState (p : Int) (b : Nat → Nat → Int) : State :=
  { board := b, top := fun j => colCount b j, player := p }

/-- Reading `n` integers with `scanf`: each token is `some x` (a readable
integer) or `none` (missing / non-numeric, at which point `scanf` fails). -/
def readCells : Nat → List (Option Int) → Option (List Int)
  | 0, _ => some []
  | _ + 1, [] => none
  | _ + 1, none :: _ => none
  | n + 1, some x :: rest => (readCells n rest).map (fun cs => x :: cs)

/-- `main` from the C source, at the token-stream boundary: `some c` models
exit code 0 with exactly the character `c` on standard output; `none`
models a failure exit with nothing on standard output. -/
def runMain (ts : List (Option Int)) : Option Char :=
  match ts with
  | some p :: rest =>
    if p = 1 ∨ p = 2 then
      match readCells (ROWS * COLS) rest with
      | some cells =>
        if alphabeta_search (initState p (boardOfCells cells)) MAX_DEPTH p < 0 then none
        else some (stack_name (alphabeta_search (initState p (boardOfCells cells)) MAX_DEPTH p).toNat)
      | none => none
    else none
  | _ => none

/-! ## Specification-side definitions -/

/-- Modelled from the spec: full unpruned fixed-depth minimax over the same
move model and evaluator — base value `evaluate(state, root_player)` at
depth 0 or at a terminal node, else the max (resp. min) of the child
values one ply deeper. -/
def minimax : Nat → State → Bool → Int → Int
  | 0, s, _, rp => evaluate_state s rp
  | Nat.succ d, s, maximizing, rp =>
    if check_winner s ≠ 0 then evaluate_state s rp
    else if get_valid_moves s = [] then evaluate_state s rp
    else if maximizing then
      (get_valid_moves s).foldl
        (fun x m => max x (minimax d (apply_move s m) false rp)) intMin
    else
      (get_valid_moves s).foldl
        (fun x m => min x (minimax d (apply_move s m) true rp)) intMax

/-- The four forward directions of the winner scan, as a predicate: cell
`(i, j)` starts four consecutive cells equal to `p` within bounds. -/
def dirsAt (s : State) (p : Int) (i j : Nat) : Prop :=
  (j + 3 < COLS ∧ p = s.board i (j+1) ∧ p = s.board i (j+2) ∧ p = s.board i (j+3)) ∨
  (i + 3 < ROWS ∧ p = s.board (i+1) j ∧ p = s.board (i+2) j ∧ p = s.board (i+3) j) ∨
  (i + 3 < ROWS ∧ j + 3 < COLS ∧ p = s.board (i+1) (j+1) ∧
    p = s.board (i+2) (j+2) ∧ p = s.board (i+3) (j+3)) ∨
  (i + 3 < ROWS ∧ 3 ≤ j ∧ p = s.board (i+1) (j-1) ∧
    p = s.board (i+2) (j-2) ∧ p = s.board (i+3) (j-3))

instance (s : State) (p : Int) (i j : Nat) : Decidable (dirsAt s p i j) := by
  unfold dirsAt; infer_instance

/-- Some in-bounds cell starts a four-in-a-row of `p`'s stones along one of
the four forward directions. -/
def hasLine (s : State) (p : Int) : Prop :=
  ∃ pr ∈ scanPairs, s.board pr.1 pr.2 = p ∧ dirsAt s p pr.1 pr.2

instance (s : State) (p : Int) : Decidable (hasLine s p) := by
  unfold hasLine; infer_instance

/-- Number of occupied (non-empty) cells of the board. -/
def occCount (s : State) : Nat :=
  (scanPairs.filter (fun pr => s.board pr.1 pr.2 != 0)).length

/-- Number of in-bounds cells holding exactly the value `p`. -/
def countP (s : State) (p : Int) : Int :=
  ((scanPairs.filter (fun pr => decide (s.board pr.1 pr.2 = p))).length : Int)

/-- The documented state invariant: each column's height equals the count of
its non-empty cells. -/
def Inv (s : State) : Prop :=
  ∀ j < COLS, s.top j = colCount s.board j

instance (s : State) : Decidable (Inv s) := by
  unfold Inv; infer_instance

/-- Cells hold only the data-model values `0`, `1`, `2`. -/
def WFCells (s : State) : Prop :=
  ∀ i < ROWS, ∀ j < COLS, s.board i j = 0 ∨ s.board i j = 1 ∨ s.board i j = 2

instance (s : State) : Decidable (WFCells s) := by
  unfold WFCells; infer_instance

/-- The fail-soft relation between a pruned value `A` and the true minimax
value `M` for a window `(a, b)`: failing low yields an upper bound, failing
high yields a lower bound, and a value strictly inside the window is exact. -/
def FS (A M a b : Int) : Prop :=
  (A ≤ a → M ≤ A) ∧ (b ≤ A → A ≤ M) ∧ (a < A → A < b → A = M)

/-! ## Concrete example states -/

/-- The all-empty board. -/
def emptyBoard : Nat → Nat → Int := fun _ _ => 0

/-- Root state for an empty board with player 1 to move. -/
def emptyRoot : State := initState 1 emptyBoard

/-- The token stream for an empty board with requesting player 1. -/
def emptyTokens : List (Option Int) := some 1 :: List.replicate 42 (some 0)

/-- Row-major cells with a single stone of player 1 floating at row 1 of
column 0 (row 0 of that column is empty): a board `main` accepts whose
column 0 is not packed from the bottom. -/
def floatCells : List Int :=
  [0,0,0,0,0,0,0, 1,0,0,0,0,0,0] ++ List.replicate 28 0

/-- The state `main` builds from `floatCells` with player 1 to move:
`top 0 = 1`, so the next stone in column 0 lands on the existing stone. -/
def floatS : State := initState 1 (boardOfCells floatCells)

/-- The token stream feeding `floatCells` to `main` with player 1. -/
def floatTokens : List (Option Int) :=
  some 1 :: floatCells.map some

/-- Row-major cells in which player 1 has a horizontal four-in-a-row on row 0
and player 2 has one on row 1: two winning lines at once. -/
def doubleCells : List Int :=
  [1,1,1,1,0,0,0, 2,2,2,2,0,0,0] ++ List.replicate 28 0

/-- The state `main` builds from `doubleCells`: both players have a line. -/
def doubleS : State := initState 1 (boardOfCells doubleCells)

end Agent200

namespace Agent200

/-! ## Basic lemmas about the board scan and the move model -/

lemma mem_scanPairs (i j : Nat) : (i, j) ∈ scanPairs ↔ i < ROWS ∧ j < COLS := by
  simp only [scanPairs, List.mem_flatMap, List.mem_map, List.mem_range]
  constructor
  · rintro ⟨a, ha, b, hb, h⟩
    cases h
    exact ⟨ha, hb⟩
  · rintro ⟨hi, hj⟩
    exact ⟨i, hi, j, hj, rfl⟩

lemma scanPairs_nodup : scanPairs.Nodup := by decide

/-- Generic counting lemma: if two Boolean predicates agree everywhere on a
duplicate-free list except at one member, where the first is false and the
second true, the second's filter is longer by exactly one. -/
lemma filter_length_flip {α : Type} (x : α) (p q : α → Bool) :
    ∀ (l : List α), l.Nodup → x ∈ l →
    (∀ y ∈ l, y ≠ x → p y = q y) → p x = false → q x = true →
    (l.filter q).length = (l.filter p).length + 1 := by
  intro l
  induction l with
  | nil => intro _ hx; cases hx
  | cons a t ih =>
    intro hnd hx hag hpx hqx
    rcases List.mem_cons.mp hx with rfl | hxt
    · have hnt : ∀ y ∈ t, p y = q y := by
        intro y hy
        refine hag y (List.mem_cons_of_mem _ hy) ?_
        intro h
        exact (List.nodup_cons.mp hnd).1 (h ▸ hy)
      rw [List.filter_cons, List.filter_cons, hpx, List.filter_congr hnt]
      simp [hqx]
    · have ha : p a = q a := by
        by_cases hax : a = x
        · subst hax
          exact absurd hxt (List.nodup_cons.mp hnd).1
        · exact hag a (List.mem_cons_self a t) hax
      have ht := ih (List.nodup_cons.mp hnd).2 hxt
        (fun y hy hne => hag y (List.mem_cons_of_mem _ hy) hne) hpx hqx
      rw [List.filter_cons, List.filter_cons, ← ha]
      by_cases hpa : p a = true
      · simp [hpa, ht]
      · simp [hpa, ht]

/-- Same-everywhere version: equal predicates give equal filter lengths. -/
lemma filter_length_congr {α : Type} (p q : α → Bool) (l : List α)
    (hag : ∀ y ∈ l, p y = q y) : (l.filter q).length = (l.filter p).length := by
  rw [List.filter_congr hag]

lemma apply_move_top_self (s : State) (c : Nat) :
    (apply_move s c).top c = s.top c + 1 := by
  simp [apply_move]

lemma apply_move_top_other (s : State) (c j : Nat) (h : j ≠ c) :
    (apply_move s c).top j = s.top j := by
  simp [apply_move, h]

lemma apply_move_board_self (s : State) (c : Nat) :
    (apply_move s c).board (s.top c) c = s.player := by
  simp [apply_move]

lemma apply_move_board_other (s : State) (c i j : Nat) (h : ¬(i = s.top c ∧ j = c)) :
    (apply_move s c).board i j = s.board i j := by
  simp only [apply_move]
  rw [if_neg h]

lemma apply_move_player (s : State) (c : Nat) :
    (apply_move s c).player = 3 - s.player := by
  simp [apply_move]

/-- Occupancy goes up by one when the landing cell is empty and the placed
stone is non-zero. -/
lemma occCount_apply_of_empty (s : State) (c : Nat) (hc : c < COLS)
    (ht : s.top c < ROWS) (hp : s.player ≠ 0) (h0 : s.board (s.top c) c = 0) :
    occCount (apply_move s c) = occCount s + 1 := by
  unfold occCount
  refine filter_length_flip ((s.top c, c) : Nat × Nat)
    (fun pr => s.board pr.1 pr.2 != 0)
    (fun pr => (apply_move s c).board pr.1 pr.2 != 0)
    scanPairs scanPairs_nodup ((mem_scanPairs _ _).mpr ⟨ht, hc⟩) ?_ ?_ ?_
  · intro y _ hy
    have h : ¬(y.1 = s.top c ∧ y.2 = c) := by
      intro ⟨h1, h2⟩
      exact hy (Prod.ext h1 h2)
    show (s.board y.1 y.2 != 0) = ((apply_move s c).board y.1 y.2 != 0)
    rw [apply_move_board_other s c y.1 y.2 h]
  · show (s.board (s.top c, c).1 (s.top c, c).2 != 0) = false
    simp [h0]
  · show ((apply_move s c).board (s.top c, c).1 (s.top c, c).2 != 0) = true
    simp [apply_move_board_self, hp]

/-- Occupancy is unchanged when the landing cell is already occupied: the
stone overwrites an existing one. -/
lemma occCount_apply_of_occupied (s : State) (c : Nat) (hp : s.player ≠ 0)
    (h0 : s.board (s.top c) c ≠ 0) :
    occCount (apply_move s c) = occCount s := by
  unfold occCount
  refine filter_length_congr _ _ scanPairs ?_
  intro y _
  show (s.board y.1 y.2 != 0) = ((apply_move s c).board y.1 y.2 != 0)
  by_cases hy : y.1 = s.top c ∧ y.2 = c
  · obtain ⟨h1, h2⟩ := hy
    rw [h1, h2, apply_move_board_self]
    have e1 : (s.board (s.top c) c != 0) = true := by simpa using h0
    have e2 : (s.player != 0) = true := by simpa using hp
    rw [e1, e2]
  · rw [apply_move_board_other s c y.1 y.2 hy]

/-- Column counts: the played column's count goes up by one when the landing
cell is empty and the stone non-zero. -/
lemma colCount_apply_self (s : State) (c : Nat) (ht : s.top c < ROWS)
    (hp : s.player ≠ 0) (h0 : s.board (s.top c) c = 0) :
    colCount (apply_move s c).board c = colCount s.board c + 1 := by
  unfold colCount
  refine filter_length_flip (s.top c)
    (fun i => s.board i c != 0)
    (fun i => (apply_move s c).board i c != 0)
    (List.range ROWS) (List.nodup_range ROWS) (List.mem_range.mpr ht) ?_ ?_ ?_
  · intro y _ hy
    have h : ¬(y = s.top c ∧ c = c) := by
      intro ⟨h1, _⟩
      exact hy h1
    show (s.board y c != 0) = ((apply_move s c).board y c != 0)
    rw [apply_move_board_other s c y c h]
  · show (s.board (s.top c) c != 0) = false
    simp [h0]
  · show ((apply_move s c).board (s.top c) c != 0) = true
    simp [apply_move_board_self, hp]

/-- Column counts of untouched columns are unchanged. -/
lemma colCount_apply_other (s : State) (c j : Nat) (h : j ≠ c) :
    colCount (apply_move s c).board j = colCount s.board j := by
  unfold colCount
  refine filter_length_congr _ _ _ ?_
  intro y _
  have hn : ¬(y = s.top c ∧ j = c) := by
    intro ⟨_, h2⟩
    exact h h2
  show (s.board y j != 0) = ((apply_move s c).board y j != 0)
  rw [apply_move_board_other s c y j hn]

end Agent200

namespace Agent200

/-! ## The evaluator's counting scan -/

/-- The single-scan pair of counters in `evaluate_state` counts exactly the
cells equal to `root_player` and the cells equal to `3 - root_player`. -/
lemma foldl_counts (s : State) (rp : Int) :
    ∀ (l : List (Nat × Nat)) (a b : Int),
    l.foldl (fun acc pr =>
      if s.board pr.1 pr.2 = rp then (acc.1 + 1, acc.2)
      else if s.board pr.1 pr.2 = 3 - rp then (acc.1, acc.2 + 1)
      else acc) (a, b)
    = (a + ((l.filter (fun pr => decide (s.board pr.1 pr.2 = rp))).length : Int),
       b + ((l.filter (fun pr => decide (s.board pr.1 pr.2 = 3 - rp))).length : Int)) := by
  intro l
  induction l with
  | nil => intro a b; simp
  | cons x t ih =>
    intro a b
    have hne1 : ¬ (rp = 3 - rp) := by omega
    have hne2 : ¬ (3 - rp = rp) := by omega
    rw [List.foldl_cons, List.filter_cons, List.filter_cons]
    by_cases hx : s.board x.1 x.2 = rp
    · have hx2 : s.board x.1 x.2 ≠ 3 - rp := by rw [hx]; exact hne1
      simp [hx, hx2, ih, Prod.ext_iff, hne1, hne2]
      omega
    · by_cases hx2 : s.board x.1 x.2 = 3 - rp
      · simp [hx, hx2, ih, Prod.ext_iff, hne1, hne2]
        omega
      · simp [hx, hx2, ih]

/-- Non-terminal evaluation is the difference of the two cell counts. -/
lemma evaluate_state_nonterminal (s : State) (rp : Int)
    (h1 : check_winner s ≠ rp) (h2 : check_winner s ≠ 3 - rp)
    (h3 : check_winner s ≠ -1) :
    evaluate_state s rp = countP s rp - countP s (3 - rp) := by
  unfold evaluate_state countP
  rw [if_neg h1, if_neg h2, if_neg h3, foldl_counts]
  simp

/-! ## Characterizing `check_winner` -/

lemma lineAt_eq_some_iff (s : State) (i j : Nat) (q : Int) :
    lineAt s i j = some q ↔ (s.board i j = q ∧ q ≠ 0 ∧ dirsAt s q i j) := by
  unfold lineAt dirsAt
  split_ifs with h0 h1 h2 h3 h4
  · constructor
    · intro h; exact absurd h (by simp)
    · rintro ⟨hb, hq0, _⟩
      exact absurd (hb.symm.trans h0) hq0
  · constructor
    · intro h
      have hb := Option.some.inj h
      rw [hb] at h0 h1
      exact ⟨hb, h0, Or.inl h1⟩
    · rintro ⟨hb, _, _⟩
      rw [hb]
  · constructor
    · intro h
      have hb := Option.some.inj h
      rw [hb] at h0 h2
      exact ⟨hb, h0, Or.inr (Or.inl h2)⟩
    · rintro ⟨hb, _, _⟩
      rw [hb]
  · constructor
    · intro h
      have hb := Option.some.inj h
      rw [hb] at h0 h3
      exact ⟨hb, h0, Or.inr (Or.inr (Or.inl h3))⟩
    · rintro ⟨hb, _, _⟩
      rw [hb]
  · constructor
    · intro h
      have hb := Option.some.inj h
      rw [hb] at h0 h4
      exact ⟨hb, h0, Or.inr (Or.inr (Or.inr h4))⟩
    · rintro ⟨hb, _, _⟩
      rw [hb]
  · constructor
    · intro h; exact absurd h (by simp)
    · rintro ⟨hb, _, hd⟩
      rw [← hb] at hd
      rcases hd with h | h | h | h
      · exact absurd h h1
      · exact absurd h h2
      · exact absurd h h3
      · exact absurd h h4

lemma exists_of_findSome?_eq_some {α β : Type} {f : α → Option β} {b : β} :
    ∀ {l : List α}, l.findSome? f = some b → ∃ a ∈ l, f a = some b := by
  intro l
  induction l with
  | nil => intro h; simp [List.findSome?] at h
  | cons x t ih =>
    intro h
    rw [List.findSome?_cons] at h
    cases hfx : f x with
    | some v =>
      rw [hfx] at h
      exact ⟨x, List.mem_cons_self x t, hfx.trans h⟩
    | none =>
      rw [hfx] at h
      obtain ⟨a, ha, hfa⟩ := ih h
      exact ⟨a, List.mem_cons_of_mem _ ha, hfa⟩

lemma hasLine_iff_lineAt (s : State) (q : Int) (hq : q ≠ 0) :
    hasLine s q ↔ ∃ pr ∈ scanPairs, lineAt s pr.1 pr.2 = some q := by
  unfold hasLine
  constructor
  · rintro ⟨pr, hm, hb, hd⟩
    exact ⟨pr, hm, (lineAt_eq_some_iff s pr.1 pr.2 q).mpr ⟨hb, hq, hd⟩⟩
  · rintro ⟨pr, hm, hl⟩
    obtain ⟨hb, _, hd⟩ := (lineAt_eq_some_iff s pr.1 pr.2 q).mp hl
    exact ⟨pr, hm, hb, hd⟩

/-- Whatever value the winner scan reports has an actual line on the board,
and (for boards with data-model cell values) is one of the two players. -/
lemma check_winner_found (s : State) (hwf : WFCells s)
    (h : scanPairs.findSome? (fun pr => lineAt s pr.1 pr.2) ≠ none) :
    (check_winner s = 1 ∨ check_winner s = 2) ∧ hasLine s (check_winner s) := by
  cases hfs : scanPairs.findSome? (fun pr => lineAt s pr.1 pr.2) with
  | none => exact absurd hfs h
  | some q =>
    have hcw : check_winner s = q := by
      unfold check_winner
      rw [hfs]
    obtain ⟨pr, hm, hl⟩ := exists_of_findSome?_eq_some hfs
    obtain ⟨hb, hq0, hd⟩ := (lineAt_eq_some_iff s pr.1 pr.2 q).mp hl
    have hmem := (mem_scanPairs pr.1 pr.2).mp (by simpa using hm)
    have hval := hwf pr.1 hmem.1 pr.2 hmem.2
    rw [hb] at hval
    refine ⟨?_, ?_⟩
    · rw [hcw]
      rcases hval with h | h | h
      · exact absurd h hq0
      · exact Or.inl h
      · exact Or.inr h
    · rw [hcw]
      exact ⟨pr, hm, hb, hd⟩

/-- When no cell starts a line, the scan returns the full-board check. -/
lemma check_winner_no_line (s : State) (hwf : WFCells s)
    (h1 : ¬ hasLine s 1) (h2 : ¬ hasLine s 2) :
    check_winner s =
      if (List.range COLS).all (fun j => decide (ROWS ≤ s.top j)) then -1 else 0 := by
  have hnone : scanPairs.findSome? (fun pr => lineAt s pr.1 pr.2) = none := by
    rw [List.findSome?_eq_none_iff]
    intro pr hm
    cases hl : lineAt s pr.1 pr.2 with
    | none => rfl
    | some q =>
      obtain ⟨hb, hq0, hd⟩ := (lineAt_eq_some_iff s pr.1 pr.2 q).mp hl
      have hmem := (mem_scanPairs pr.1 pr.2).mp (by simpa using hm)
      have hval := hwf pr.1 hmem.1 pr.2 hmem.2
      rw [hb] at hval
      have hline : hasLine s q := ⟨pr, hm, hb, hd⟩
      rcases hval with h | h | h
      · exact absurd h hq0
      · exact absurd (h ▸ hline) h1
      · exact absurd (h ▸ hline) h2
  unfold check_winner
  rw [hnone]

lemma colCount_le_rows (b : Nat → Nat → Int) (j : Nat) :
    colCount b j ≤ ROWS := by
  calc colCount b j ≤ (List.range ROWS).length := List.length_filter_le _ _
  _ = ROWS := List.length_range ROWS

lemma full_check_iff (s : State) :
    ((List.range COLS).all (fun j => decide (ROWS ≤ s.top j)) = true) ↔
      ∀ j < COLS, ROWS ≤ s.top j := by
  simp [List.all_eq_true, List.mem_range]

end Agent200

namespace Agent200

lemma player_ne_zero {p : Int} (hp : p = 1 ∨ p = 2) : p ≠ 0 := by
  rcases hp with h | h <;> omega

lemma findSome_ne_none_of_hasLine (s : State) (q : Int) (hq : q ≠ 0)
    (h : hasLine s q) :
    scanPairs.findSome? (fun pr => lineAt s pr.1 pr.2) ≠ none := by
  obtain ⟨pr, hm, hl⟩ := (hasLine_iff_lineAt s q hq).mp h
  intro hn
  rw [List.findSome?_eq_none_iff] at hn
  have h0 : lineAt s pr.1 pr.2 = none := hn pr hm
  rw [h0] at hl
  exact Option.noConfusion hl

/-- The full-board test of `check_winner`, under the height invariant, is
exactly "every column height equals ROWS". -/
lemma full_check_iff_heights (s : State) (hinv : Inv s) :
    ((List.range COLS).all (fun j => decide (ROWS ≤ s.top j)) = true) ↔
      ∀ j < COLS, s.top j = ROWS := by
  rw [full_check_iff]
  constructor
  · intro h j hj
    have h1 := h j hj
    have h2 := hinv j hj
    have h3 := colCount_le_rows s.board j
    omega
  · intro h j hj
    rw [h j hj]

/-- C4: the static evaluator returns +100000 on a root-player win, -100000 on
an opponent win, 0 on a draw, and otherwise the root player's stone count
minus the opponent's stone count. -/
theorem claim_C4_evaluator (s : State) (rp : Int) (h : rp = 1 ∨ rp = 2) :
    (check_winner s = rp → evaluate_state s rp = 100000) ∧
    (check_winner s = 3 - rp → evaluate_state s rp = -100000) ∧
    (check_winner s = -1 → evaluate_state s rp = 0) ∧
    (check_winner s ≠ rp → check_winner s ≠ 3 - rp → check_winner s ≠ -1 →
      evaluate_state s rp = countP s rp - countP s (3 - rp)) := by
  refine ⟨?_, ?_, ?_, evaluate_state_nonterminal s rp⟩
  · intro hw
    unfold evaluate_state
    rw [if_pos hw]
  · intro hw
    have hne : check_winner s ≠ rp := by rw [hw]; omega
    unfold evaluate_state
    rw [if_neg hne, if_pos hw]
  · intro hw
    have hne : check_winner s ≠ rp := by rw [hw]; rcases h with h | h <;> omega
    have hne2 : check_winner s ≠ 3 - rp := by rw [hw]; rcases h with h | h <;> omega
    unfold evaluate_state
    rw [if_neg hne, if_neg hne2, if_pos hw]

/-- Witness for C4 at a concrete input: the empty board with root player 1 is
non-terminal, so the evaluator returns the stone-count difference. -/
theorem claim_C4_witness :
    evaluate_state emptyRoot 1 = countP emptyRoot 1 - countP emptyRoot (3 - 1) :=
  (claim_C4_evaluator emptyRoot 1 (Or.inl rfl)).2.2.2 (by decide) (by decide) (by decide)

/-- C5 fails as stated: `floatS` is a data-model state (cells in {0,1,2},
heights equal to column counts) with a legal move in column 0, yet applying
that move leaves the occupied-cell count unchanged, because the landing cell
already holds a stone. -/
theorem claim_C5_counterexample :
    WFCells floatS ∧ Inv floatS ∧ floatS.player = 1 ∧ floatS.top 0 < ROWS ∧
    occCount (apply_move floatS 0) ≠ occCount floatS + 1 := by decide

/-- C5 (amended): for a legal move whose landing cell is empty — as in every
gravity-packed state — and a moving player in {1,2}, applying the move adds
exactly one occupied cell, raises the touched column's height by one, leaves
every other column's height and cells (and the untouched cells of the played
column) unchanged, and switches the player. -/
theorem claim_C5_apply_move_effects (s : State) (c : Nat) (hc : c < COLS)
    (hlegal : s.top c < ROWS) (hp : s.player = 1 ∨ s.player = 2)
    (hempty : s.board (s.top c) c = 0) :
    occCount (apply_move s c) = occCount s + 1 ∧
    (apply_move s c).top c = s.top c + 1 ∧
    (∀ j, j ≠ c → (apply_move s c).top j = s.top j) ∧
    (∀ i j, j ≠ c → (apply_move s c).board i j = s.board i j) ∧
    (∀ i, i ≠ s.top c → (apply_move s c).board i c = s.board i c) ∧
    (apply_move s c).player = 3 - s.player := by
  refine ⟨occCount_apply_of_empty s c hc hlegal (player_ne_zero hp) hempty,
    apply_move_top_self s c, ?_, ?_, ?_, apply_move_player s c⟩
  · intro j hj
    exact apply_move_top_other s c j hj
  · intro i j hj
    exact apply_move_board_other s c i j (fun h => hj h.2)
  · intro i hi
    exact apply_move_board_other s c i c (fun h => hi h.1)

/-- Witness for C5 at a concrete input: the first move on the empty board. -/
theorem claim_C5_witness :
    occCount (apply_move emptyRoot 0) = occCount emptyRoot + 1 :=
  (claim_C5_apply_move_effects emptyRoot 0 (by decide) (by decide)
    (by decide) (by decide)).1

/-- C6 fails as stated: `main` accepts `floatCells` and builds `floatS`,
which satisfies the height invariant, but one legal move breaks it (the
stone overwrites an occupied landing cell, so the column count does not
keep up with the incremented height). -/
theorem claim_C6_counterexample :
    Inv floatS ∧ floatS.top 0 < ROWS ∧ ¬ Inv (apply_move floatS 0) := by decide

/-- C6 (amended): the invariant "every column height equals the count of
non-empty cells in that column" holds for every initial state `main`
constructs, and is preserved by a legal move whose landing cell is empty
(with the moving player in {1,2}); an accepted unpacked board can break it
after one legal move. -/
theorem claim_C6_invariant :
    (∀ (p : Int) (b : Nat → Nat → Int), Inv (initState p b)) ∧
    (∀ (s : State) (c : Nat), c < COLS → s.top c < ROWS →
      (s.player = 1 ∨ s.player = 2) → s.board (s.top c) c = 0 →
      Inv s → Inv (apply_move s c)) := by
  constructor
  · intro p b j _
    rfl
  · intro s c hc ht hp h0 hinv j hj
    by_cases hjc : j = c
    · subst hjc
      rw [apply_move_top_self, colCount_apply_self s j ht (player_ne_zero hp) h0,
        hinv j hj]
    · rw [apply_move_top_other s c j hjc, colCount_apply_other s c j hjc]
      exact hinv j hj

/-- Witness for C6 at a concrete input: the invariant survives the first move
on the empty board. -/
theorem claim_C6_witness : Inv (apply_move emptyRoot 0) :=
  claim_C6_invariant.2 emptyRoot 0 (by decide) (by decide) (by decide)
    (by decide) (by decide)

/-- C3 fails as stated: on `doubleS`, a data-model state in which both
players have a four-in-a-row, the scan returns player 1 (first in row-major
order), so "returns p iff p has a line" fails for p = 2. -/
theorem claim_C3_counterexample :
    WFCells doubleS ∧ Inv doubleS ∧ hasLine doubleS 2 ∧ check_winner doubleS = 1 := by
  decide

/-- C3 (amended): for every data-model state (cells in {0,1,2}, heights equal
to column counts) in which at most one player has a four-in-a-row,
`check_winner` returns p in {1,2} iff some cell starts four consecutive
cells of p's stones along one of the four forward directions; with no line,
it returns -1 exactly when every column height equals ROWS, else 0. -/
theorem claim_C3_winner_characterization (s : State) (hwf : WFCells s)
    (hinv : Inv s) (huniq : ¬ (hasLine s 1 ∧ hasLine s 2)) :
    (∀ p : Int, p = 1 ∨ p = 2 → (check_winner s = p ↔ hasLine s p)) ∧
    (¬ hasLine s 1 → ¬ hasLine s 2 →
      (check_winner s = -1 ↔ ∀ j < COLS, s.top j = ROWS) ∧
      (check_winner s = 0 ↔ ¬ ∀ j < COLS, s.top j = ROWS)) := by
  constructor
  · intro p hp
    constructor
    · intro hcw
      by_cases hline : hasLine s 1 ∨ hasLine s 2
      · have hne : scanPairs.findSome? (fun pr => lineAt s pr.1 pr.2) ≠ none := by
          rcases hline with h | h
          · exact findSome_ne_none_of_hasLine s 1 (by omega) h
          · exact findSome_ne_none_of_hasLine s 2 (by omega) h
        have hl := (check_winner_found s hwf hne).2
        rw [hcw] at hl
        exact hl
      · push_neg at hline
        have hno := check_winner_no_line s hwf hline.1 hline.2
        rw [hcw] at hno
        by_cases hfull : (List.range COLS).all (fun j => decide (ROWS ≤ s.top j)) = true
        · rw [if_pos hfull] at hno
          rcases hp with h | h <;> omega
        · rw [if_neg hfull] at hno
          rcases hp with h | h <;> omega
    · intro hline
      have hp0 : p ≠ 0 := player_ne_zero hp
      have hne : scanPairs.findSome? (fun pr => lineAt s pr.1 pr.2) ≠ none :=
        findSome_ne_none_of_hasLine s p hp0 hline
      obtain ⟨hq12, hlq⟩ := check_winner_found s hwf hne
      by_contra hnep
      rcases hp with hp1 | hp2
      · subst hp1
        rcases hq12 with h | h
        · exact hnep h
        · exact huniq ⟨hline, h ▸ hlq⟩
      · subst hp2
        rcases hq12 with h | h
        · exact huniq ⟨h ▸ hlq, hline⟩
        · exact hnep h
  · intro h1 h2
    have hcw := check_winner_no_line s hwf h1 h2
    by_cases hfull : (List.range COLS).all (fun j => decide (ROWS ≤ s.top j)) = true
    · rw [if_pos hfull] at hcw
      refine ⟨⟨fun _ => (full_check_iff_heights s hinv).mp hfull, fun _ => hcw⟩, ?_, ?_⟩
      · intro h
        rw [hcw] at h
        omega
      · intro hn
        exact absurd ((full_check_iff_heights s hinv).mp hfull) hn
    · rw [if_neg hfull] at hcw
      refine ⟨⟨?_, ?_⟩, ⟨fun _ hall => hfull ((full_check_iff_heights s hinv).mpr hall),
        fun _ => hcw⟩⟩
      · intro h
        rw [hcw] at h
        omega
      · intro hall
        exact absurd ((full_check_iff_heights s hinv).mpr hall) hfull

/-- Witness for C3 at a concrete input: `floatS` has no line and is not
full, so `check_winner` returns 0. -/
theorem claim_C3_witness :
    check_winner floatS = 0 ↔ ¬ ∀ j < COLS, floatS.top j = ROWS :=
  ((claim_C3_winner_characterization floatS (by decide) (by decide)
    (by decide)).2 (by decide) (by decide)).2

end Agent200

namespace Agent200

lemma imax_eq_max (x y : Int) : imax x y = max x y := by
  unfold imax
  split_ifs with h
  · exact (max_eq_right h.le).symm
  · exact (max_eq_left (not_lt.mp h)).symm

lemma imin_eq_min (x y : Int) : imin x y = min x y := by
  unfold imin
  split_ifs with h
  · exact (min_eq_right h.le).symm
  · exact (min_eq_left (not_lt.mp h)).symm

lemma abMaxLoop_ge_seed (f : State → Int → Int → Int) (s : State) :
    ∀ (ms : List Nat) (v α β : Int), v ≤ abMaxLoop f s ms v α β := by
  intro ms
  induction ms with
  | nil => intro v α β; simp [abMaxLoop]
  | cons m t ih =>
    intro v α β
    simp only [abMaxLoop, imax_eq_max]
    by_cases hcut : β ≤ max α (max v (f (apply_move s m) α β))
    · rw [if_pos hcut]
      exact le_max_left _ _
    · rw [if_neg hcut]
      exact le_trans (le_max_left _ _) (ih _ _ _)

lemma abMinLoop_le_seed (f : State → Int → Int → Int) (s : State) :
    ∀ (ms : List Nat) (v α β : Int), abMinLoop f s ms v α β ≤ v := by
  intro ms
  induction ms with
  | nil => intro v α β; simp [abMinLoop]
  | cons m t ih =>
    intro v α β
    simp only [abMinLoop, imin_eq_min]
    by_cases hcut : min β (min v (f (apply_move s m) α β)) ≤ α
    · rw [if_pos hcut]
      exact min_le_left _ _
    · rw [if_neg hcut]
      exact le_trans (ih _ _ _) (min_le_left _ _)

lemma foldl_max_ge_seed (g : Nat → Int) :
    ∀ (ms : List Nat) (t : Int), t ≤ ms.foldl (fun x m => max x (g m)) t := by
  intro ms
  induction ms with
  | nil => intro t; simp
  | cons m tl ih =>
    intro t
    rw [List.foldl_cons]
    exact le_trans (le_max_left _ _) (ih _)

lemma foldl_min_le_seed (g : Nat → Int) :
    ∀ (ms : List Nat) (t : Int), ms.foldl (fun x m => min x (g m)) t ≤ t := by
  intro ms
  induction ms with
  | nil => intro t; simp
  | cons m tl ih =>
    intro t
    rw [List.foldl_cons]
    exact le_trans (ih _) (min_le_left _ _)

/-- Fail-soft invariant of the maximizing loop. -/
lemma abMaxLoop_fs (f : State → Int → Int → Int) (g : Nat → Int) (s : State) :
    ∀ (ms : List Nat) (v t α β : Int),
    (∀ m ∈ ms, ∀ a b : Int, intMin ≤ a → b ≤ intMax → a < b →
      FS (f (apply_move s m) a b) (g m) a b) →
    intMin ≤ α → β ≤ intMax → α < β → v < β → t ≤ v → (t = v ∨ v ≤ α) →
    FS (abMaxLoop f s ms v α β) (ms.foldl (fun x m => max x (g m)) t) α β := by
  intro ms
  induction ms with
  | nil =>
    intro v t α β _ _ _ hab hv htv hd
    simp only [abMaxLoop, List.foldl_nil]
    refine ⟨fun _ => htv, fun hbv => absurd hbv (by omega), fun hav _ => ?_⟩
    rcases hd with h | h
    · exact h.symm
    · omega
  | cons m ms ih =>
    intro v t α β hf hα hβ hab hv htv hd
    have hFS1 := hf m (List.mem_cons_self m ms) α β hα hβ hab
    simp only [abMaxLoop, imax_eq_max, List.foldl_cons]
    set A1 := f (apply_move s m) α β with hA1def
    set M1 := g m with hM1def
    by_cases hcut : β ≤ max α (max v A1)
    · rw [if_pos hcut]
      have hvb : β ≤ max v A1 := by
        rcases le_or_lt β (max v A1) with h | h
        · exact h
        · exact absurd hcut (not_le.mpr (max_lt hab h))
      have hA1max : max v A1 = A1 := by
        rcases le_total A1 v with h | h
        · rw [max_eq_left h] at hvb; omega
        · exact max_eq_right h
      rw [hA1max]
      have hba : β ≤ A1 := hA1max ▸ hvb
      have hA1M1 : A1 ≤ M1 := hFS1.2.1 hba
      have hT : M1 ≤ ms.foldl (fun x m => max x (g m)) (max t M1) :=
        le_trans (le_max_right t M1) (foldl_max_ge_seed g ms (max t M1))
      exact ⟨fun hle => absurd hle (by omega), fun _ => le_trans hA1M1 hT,
        fun _ hlt => absurd hlt (by omega)⟩
    · rw [if_neg hcut]
      push_neg at hcut
      have hv' : max v A1 < β := lt_of_le_of_lt (le_max_right α _) hcut
      have hA1b : A1 < β := lt_of_le_of_lt (le_max_right v A1) hv'
      have hM1le : M1 ≤ max v A1 ∨ A1 = M1 := by
        rcases le_or_lt A1 α with h | h
        · exact Or.inl (le_trans (hFS1.1 h) (le_trans (le_max_right v A1) (le_refl _)))
        · exact Or.inr (hFS1.2.2 h hA1b)
      have htv' : max t M1 ≤ max v A1 := by
        rcases hM1le with h | h
        · exact max_le (le_trans htv (le_max_left v A1)) h
        · exact max_le (le_trans htv (le_max_left v A1)) (h ▸ le_max_right v A1)
      have IH := ih (max v A1) (max t M1) (max α (max v A1)) β
        (fun m' hm' => hf m' (List.mem_cons_of_mem _ hm'))
        (le_trans hα (le_max_left _ _)) hβ hcut hv' htv'
        (Or.inr (le_max_right _ _))
      obtain ⟨I1, I2, I3⟩ := IH
      refine ⟨?_, I2, ?_⟩
      · intro hLα
        exact I1 (le_trans hLα (le_max_left _ _))
      · intro hαL hLβ
        rcases lt_or_le (max α (max v A1))
          (abMaxLoop f s ms (max v A1) (max α (max v A1)) β) with h | h
        · exact I3 h hLβ
        · have hTL := I1 h
          have hLge := abMaxLoop_ge_seed f s ms (max v A1) (max α (max v A1)) β
          rcases max_cases α (max v A1) with ⟨he, _⟩ | ⟨he, hle⟩
          · rw [he] at h hαL
            omega
          · rw [he] at h hTL hLge
            have hLeq : abMaxLoop f s ms (max v A1) (max v A1) β = max v A1 :=
              le_antisymm h hLge
            have ht'v' : max t M1 = max v A1 := by
              rcases le_or_lt A1 α with hAα | hAα
              · have hM1A1 : M1 ≤ A1 := hFS1.1 hAα
                have hmaxv : max v A1 = v := by
                  rcases max_choice v A1 with hh | hh
                  · exact hh
                  · rw [hh] at hle; omega
                have htveq : t = v := by
                  rcases hd with hh | hh
                  · exact hh
                  · rw [hmaxv] at hle; omega
                rw [hmaxv, htveq]
                exact max_eq_left (by omega)
              · have hA1M1 : A1 = M1 := hFS1.2.2 hAα hA1b
                rcases hd with hh | hh
                · rw [hh, hA1M1]
                · have hmaxA : max v A1 = A1 := max_eq_right (by omega)
                  rw [hmaxA, ← hA1M1]
                  exact max_eq_right (by omega)
            rw [hLeq, ← ht'v'] at hTL
            rw [he, hLeq, ← ht'v']
            exact le_antisymm (foldl_max_ge_seed g ms (max t M1)) hTL

end Agent200

namespace Agent200

/-- Fail-soft invariant of the minimizing loop. -/
lemma abMinLoop_fs (f : State → Int → Int → Int) (g : Nat → Int) (s : State) :
    ∀ (ms : List Nat) (v t α β : Int),
    (∀ m ∈ ms, ∀ a b : Int, intMin ≤ a → b ≤ intMax → a < b →
      FS (f (apply_move s m) a b) (g m) a b) →
    intMin ≤ α → β ≤ intMax → α < β → α < v → v ≤ t → (t = v ∨ β ≤ v) →
    FS (abMinLoop f s ms v α β) (ms.foldl (fun x m => min x (g m)) t) α β := by
  intro ms
  induction ms with
  | nil =>
    intro v t α β _ _ _ hab hv hvt hd
    simp only [abMinLoop, List.foldl_nil]
    refine ⟨fun hva => absurd hva (by omega), fun _ => hvt, fun _ hvb => ?_⟩
    rcases hd with h | h
    · exact h.symm
    · omega
  | cons m ms ih =>
    intro v t α β hf hα hβ hab hv hvt hd
    have hFS1 := hf m (List.mem_cons_self m ms) α β hα hβ hab
    simp only [abMinLoop, imin_eq_min, List.foldl_cons]
    set A1 := f (apply_move s m) α β with hA1def
    set M1 := g m with hM1def
    by_cases hcut : min β (min v A1) ≤ α
    · rw [if_pos hcut]
      have hva : min v A1 ≤ α := by
        rcases le_or_lt (min v A1) α with h | h
        · exact h
        · exact absurd hcut (not_le.mpr (lt_min hab h))
      have hA1min : min v A1 = A1 := by
        rcases le_total v A1 with h | h
        · rw [min_eq_left h] at hva; omega
        · exact min_eq_right h
      rw [hA1min]
      have hab1 : A1 ≤ α := hA1min ▸ hva
      have hM1A1 : M1 ≤ A1 := hFS1.1 hab1
      have hT : ms.foldl (fun x m => min x (g m)) (min t M1) ≤ M1 :=
        le_trans (foldl_min_le_seed g ms (min t M1)) (min_le_right t M1)
      exact ⟨fun _ => le_trans hT hM1A1, fun hbv => absurd hbv (by omega),
        fun hlt _ => absurd hlt (by omega)⟩
    · rw [if_neg hcut]
      push_neg at hcut
      have hv' : α < min v A1 := lt_of_lt_of_le hcut (min_le_right β _)
      have hA1a : α < A1 := lt_of_lt_of_le hv' (min_le_right v A1)
      have hM1ge : min v A1 ≤ M1 ∨ A1 = M1 := by
        rcases le_or_lt β A1 with h | h
        · exact Or.inl (le_trans (min_le_right v A1) (hFS1.2.1 h))
        · exact Or.inr (hFS1.2.2 hA1a h)
      have hvt' : min v A1 ≤ min t M1 := by
        rcases hM1ge with h | h
        · exact le_min (le_trans (min_le_left v A1) hvt) h
        · exact le_min (le_trans (min_le_left v A1) hvt) (h ▸ min_le_right v A1)
      have IH := ih (min v A1) (min t M1) α (min β (min v A1))
        (fun m' hm' => hf m' (List.mem_cons_of_mem _ hm'))
        hα (le_trans (min_le_left β _) hβ) hcut hv' hvt'
        (Or.inr (min_le_right _ _))
      obtain ⟨I1, I2, I3⟩ := IH
      refine ⟨I1, ?_, ?_⟩
      · intro hβL
        exact I2 (le_trans (min_le_left β (min v A1)) hβL)
      · intro hαL hLβ
        rcases lt_or_le (abMinLoop f s ms (min v A1) α (min β (min v A1)))
          (min β (min v A1)) with h | h
        · exact I3 hαL h
        · have hTL := I2 h
          have hLle := abMinLoop_le_seed f s ms (min v A1) α (min β (min v A1))
          rcases min_cases β (min v A1) with ⟨he, _⟩ | ⟨he, hle⟩
          · rw [he] at h hLβ
            omega
          · rw [he] at h hTL hLle
            have hLeq : abMinLoop f s ms (min v A1) α (min v A1) = min v A1 :=
              le_antisymm hLle h
            have ht'v' : min t M1 = min v A1 := by
              rcases le_or_lt β A1 with hbA | hbA
              · have hminv : min v A1 = v := by
                  rcases min_choice v A1 with hh | hh
                  · exact hh
                  · rw [hh] at hle; omega
                have hvb : v < β := hminv ▸ hle
                have htveq : t = v := by
                  rcases hd with hh | hh
                  · exact hh
                  · omega
                have hM1A : A1 ≤ M1 := hFS1.2.1 hbA
                rw [hminv, htveq]
                exact min_eq_left (by omega)
              · have hA1M1 : A1 = M1 := hFS1.2.2 hA1a hbA
                rcases hd with hh | hh
                · rw [hh, hA1M1]
                · have hminA : min v A1 = A1 := min_eq_right (by omega)
                  rw [hminA, ← hA1M1]
                  exact min_eq_right (by omega)
            rw [hLeq, ← ht'v'] at hTL
            rw [he, hLeq, ← ht'v']
            exact le_antisymm hTL (foldl_min_le_seed g ms (min t M1))

end Agent200

namespace Agent200

lemma alphabeta_fs (rp : Int) :
    ∀ (d : Nat) (s : State) (α β : Int) (mx : Bool),
    intMin ≤ α → β ≤ intMax → α < β →
    FS (alphabeta d s α β mx rp) (minimax d s mx rp) α β := by
  intro d
  induction d with
  | zero =>
    intro s α β mx _ _ _
    simp only [alphabeta, minimax]
    exact ⟨fun _ => le_refl _, fun _ => le_refl _, fun _ _ => rfl⟩
  | succ d ih =>
    intro s α β mx hα hβ hab
    simp only [alphabeta, minimax]
    by_cases hw : check_winner s ≠ 0
    · rw [if_pos hw, if_pos hw]
      exact ⟨fun _ => le_refl _, fun _ => le_refl _, fun _ _ => rfl⟩
    · rw [if_neg hw, if_neg hw]
      by_cases hmv : get_valid_moves s = []
      · rw [if_pos hmv, if_pos hmv]
        exact ⟨fun _ => le_refl _, fun _ => le_refl _, fun _ _ => rfl⟩
      · rw [if_neg hmv, if_neg hmv]
        cases mx with
        | true =>
          rw [if_pos rfl, if_pos rfl]
          exact abMaxLoop_fs _ _ s (get_valid_moves s) intMin intMin α β
            (fun m _ a b ha hb hab' => ih (apply_move s m) a b false ha hb hab')
            hα hβ hab (by omega) (le_refl _) (Or.inl rfl)
        | false =>
          rw [if_neg (by simp), if_neg (by simp)]
          exact abMinLoop_fs _ _ s (get_valid_moves s) intMax intMax α β
            (fun m _ a b ha hb hab' => ih (apply_move s m) a b true ha hb hab')
            hα hβ hab (by omega) (le_refl _) (Or.inl rfl)

lemma scanPairs_length : scanPairs.length = 42 := by decide

lemma evaluate_state_bounds (s : State) (rp : Int) :
    -100000 ≤ evaluate_state s rp ∧ evaluate_state s rp ≤ 100000 := by
  unfold evaluate_state
  split_ifs with h1 h2 h3
  · constructor <;> norm_num
  · constructor <;> norm_num
  · constructor <;> norm_num
  · rw [foldl_counts]
    have l1 : ((scanPairs.filter (fun pr => decide (s.board pr.1 pr.2 = rp))).length) ≤ 42 := by
      have h := List.length_filter_le (fun pr => decide (s.board pr.1 pr.2 = rp)) scanPairs
      rw [scanPairs_length] at h
      exact h
    have l2 : ((scanPairs.filter (fun pr =>
        decide (s.board pr.1 pr.2 = 3 - rp))).length) ≤ 42 := by
      have h := List.length_filter_le (fun pr => decide (s.board pr.1 pr.2 = 3 - rp)) scanPairs
      rw [scanPairs_length] at h
      exact h
    constructor <;> simp only <;> omega

lemma abMaxLoop_le (f : State → Int → Int → Int) (s : State) (hi : Int) :
    ∀ (ms : List Nat) (v α β : Int),
    (∀ m ∈ ms, ∀ a b : Int, f (apply_move s m) a b ≤ hi) → v ≤ hi →
    abMaxLoop f s ms v α β ≤ hi := by
  intro ms
  induction ms with
  | nil => intro v α β _ hv; simpa [abMaxLoop] using hv
  | cons m t ih =>
    intro v α β hf hv
    simp only [abMaxLoop, imax_eq_max]
    have hstep : max v (f (apply_move s m) α β) ≤ hi :=
      max_le hv (hf m (List.mem_cons_self m t) α β)
    by_cases hcut : β ≤ max α (max v (f (apply_move s m) α β))
    · rw [if_pos hcut]
      exact hstep
    · rw [if_neg hcut]
      exact ih _ _ _ (fun m' hm' => hf m' (List.mem_cons_of_mem _ hm')) hstep

lemma abMaxLoop_ge_first (f : State → Int → Int → Int) (s : State) (lo : Int)
    (m : Nat) (ms : List Nat) (v α β : Int)
    (hm : ∀ a b : Int, lo ≤ f (apply_move s m) a b) :
    lo ≤ abMaxLoop f s (m :: ms) v α β := by
  simp only [abMaxLoop, imax_eq_max]
  by_cases hcut : β ≤ max α (max v (f (apply_move s m) α β))
  · rw [if_pos hcut]
    exact le_trans (hm α β) (le_max_right _ _)
  · rw [if_neg hcut]
    exact le_trans (le_trans (hm α β) (le_max_right v _)) (abMaxLoop_ge_seed f s ms _ _ _)

lemma abMinLoop_ge (f : State → Int → Int → Int) (s : State) (lo : Int) :
    ∀ (ms : List Nat) (v α β : Int),
    (∀ m ∈ ms, ∀ a b : Int, lo ≤ f (apply_move s m) a b) → lo ≤ v →
    lo ≤ abMinLoop f s ms v α β := by
  intro ms
  induction ms with
  | nil => intro v α β _ hv; simpa [abMinLoop] using hv
  | cons m t ih =>
    intro v α β hf hv
    simp only [abMinLoop, imin_eq_min]
    have hstep : lo ≤ min v (f (apply_move s m) α β) :=
      le_min hv (hf m (List.mem_cons_self m t) α β)
    by_cases hcut : min β (min v (f (apply_move s m) α β)) ≤ α
    · rw [if_pos hcut]
      exact hstep
    · rw [if_neg hcut]
      exact ih _ _ _ (fun m' hm' => hf m' (List.mem_cons_of_mem _ hm')) hstep

lemma abMinLoop_le_first (f : State → Int → Int → Int) (s : State) (hi : Int)
    (m : Nat) (ms : List Nat) (v α β : Int)
    (hm : ∀ a b : Int, f (apply_move s m) a b ≤ hi) :
    abMinLoop f s (m :: ms) v α β ≤ hi := by
  simp only [abMinLoop, imin_eq_min]
  by_cases hcut : min β (min v (f (apply_move s m) α β)) ≤ α
  · rw [if_pos hcut]
    exact le_trans (min_le_right _ _) (hm α β)
  · rw [if_neg hcut]
    exact le_trans (abMinLoop_le_seed f s ms _ _ _)
      (le_trans (min_le_right v _) (hm α β))

lemma alphabeta_bounds (rp : Int) :
    ∀ (d : Nat) (s : State) (α β : Int) (mx : Bool),
    -100000 ≤ alphabeta d s α β mx rp ∧ alphabeta d s α β mx rp ≤ 100000 := by
  intro d
  induction d with
  | zero =>
    intro s α β mx
    simp only [alphabeta]
    exact evaluate_state_bounds s rp
  | succ d ih =>
    intro s α β mx
    simp only [alphabeta]
    split_ifs with hw hmv hmx
    · exact evaluate_state_bounds s rp
    · exact evaluate_state_bounds s rp
    · obtain ⟨m, ms, hms⟩ := List.exists_cons_of_ne_nil hmv
      rw [hms]
      constructor
      · exact abMaxLoop_ge_first _ s (-100000) m ms intMin α β
          (fun a b => (ih (apply_move s m) a b false).1)
      · exact abMaxLoop_le _ s 100000 (m :: ms) intMin α β
          (fun m' _ a b => (ih (apply_move s m') a b false).2) (by decide)
    · obtain ⟨m, ms, hms⟩ := List.exists_cons_of_ne_nil hmv
      rw [hms]
      constructor
      · exact abMinLoop_ge _ s (-100000) (m :: ms) intMax α β
          (fun m' _ a b => (ih (apply_move s m') a b true).1) (by decide)
      · exact abMinLoop_le_first _ s 100000 m ms intMax α β
          (fun a b => (ih (apply_move s m) a b true).2)

end Agent200

namespace Agent200

/-- C2: with the full window (alpha = INT_MIN, beta = INT_MAX) the pruned
search returns exactly the value of full unpruned fixed-depth minimax over
the same move model and evaluator, for every state, depth, node polarity
and root player. -/
theorem claim_C2_alphabeta_eq_minimax (d : Nat) (s : State) (mx : Bool) (rp : Int) :
    alphabeta d s intMin intMax mx rp = minimax d s mx rp := by
  have hFS := alphabeta_fs rp d s intMin intMax mx (le_refl _) (le_refl _) (by decide)
  obtain ⟨hb1, hb2⟩ := alphabeta_bounds rp d s intMin intMax mx
  have e1 : intMin = -2147483648 := rfl
  have e2 : intMax = 2147483647 := rfl
  exact hFS.2.2 (by omega) (by omega)

/-- C7 fails as stated: with window (50000, 60000) on the empty board at
depth 1, the value returned is 1, far below alpha — the implementation is
fail-soft, not fail-hard. -/
theorem claim_C7_counterexample :
    intMin ≤ (50000 : Int) ∧ (60000 : Int) ≤ intMax ∧ (50000 : Int) < 60000 ∧
    alphabeta 1 emptyRoot 50000 60000 true 1 < 50000 := by decide

/-- C7 (amended): the search is fail-soft, not fail-hard.  For any bounds
alpha < beta (within the int range), the returned value need not lie in
[alpha, beta]; instead, a value at most alpha is an upper bound on the true
minimax value, a value at least beta is a lower bound on it, and a value
strictly inside the window equals it exactly. -/
theorem claim_C7_failsoft (s : State) (d : Nat) (α β : Int) (mx : Bool) (rp : Int)
    (hα : intMin ≤ α) (hβ : β ≤ intMax) (hab : α < β) :
    (alphabeta d s α β mx rp ≤ α → minimax d s mx rp ≤ alphabeta d s α β mx rp) ∧
    (β ≤ alphabeta d s α β mx rp → alphabeta d s α β mx rp ≤ minimax d s mx rp) ∧
    (α < alphabeta d s α β mx rp → alphabeta d s α β mx rp < β →
      alphabeta d s α β mx rp = minimax d s mx rp) :=
  alphabeta_fs rp d s α β mx hα hβ hab

/-- Witness for C7 at a concrete input: on the empty board at depth 1 with
window (50000, 60000) the search fails low, so its value bounds the true
minimax value from above. -/
theorem claim_C7_witness :
    minimax 1 emptyRoot true 1 ≤ alphabeta 1 emptyRoot 50000 60000 true 1 :=
  (claim_C7_failsoft emptyRoot 1 50000 60000 true 1 (by decide) (by decide)
    (by decide)).1 (by decide)

end Agent200

namespace Agent200

lemma rootVal_def (root : State) (depth : Nat) (rp : Int) (m : Nat) :
    alphabeta (depth - 1) (apply_move root m) intMin intMax false rp =
      rootVal root depth rp m := rfl

lemma mem_get_valid_moves (s : State) (m : Nat) :
    m ∈ get_valid_moves s ↔ m < COLS ∧ s.top m < ROWS := by
  unfold get_valid_moves
  simp [List.mem_filter, List.mem_range]

lemma get_valid_moves_ne_nil_iff (s : State) :
    get_valid_moves s ≠ [] ↔ ∃ j, j < COLS ∧ s.top j < ROWS := by
  constructor
  · intro h
    obtain ⟨m, ms, hms⟩ := List.exists_cons_of_ne_nil h
    have hm : m ∈ get_valid_moves s := by
      rw [hms]
      exact List.mem_cons_self m ms
    exact ⟨m, (mem_get_valid_moves s m).mp hm⟩
  · rintro ⟨j, hj, ht⟩ h
    have hm : j ∈ get_valid_moves s := (mem_get_valid_moves s j).mpr ⟨hj, ht⟩
    rw [h] at hm
    exact List.not_mem_nil j hm

/-- The root loop keeps the current best on ties and replaces it only on a
strict improvement: either no candidate beats the incoming best value, or
the result is the unique first candidate strictly beating everything before
it and at least tying everything after it. -/
lemma searchLoop_char (root : State) (depth : Nat) (rp : Int) :
    ∀ (ms : List Nat) (bm bv : Int),
    ((∀ m ∈ ms, rootVal root depth rp m ≤ bv) ∧ searchLoop root depth rp ms bm bv = bm) ∨
    (∃ (l1 : List Nat) (m : Nat) (l2 : List Nat),
      ms = l1 ++ m :: l2 ∧ searchLoop root depth rp ms bm bv = (m : Int) ∧
      bv < rootVal root depth rp m ∧
      (∀ m' ∈ l1, rootVal root depth rp m' < rootVal root depth rp m) ∧
      (∀ m' ∈ l2, rootVal root depth rp m' ≤ rootVal root depth rp m)) := by
  intro ms
  induction ms with
  | nil =>
    intro bm bv
    left
    exact ⟨fun m hm => absurd hm (List.not_mem_nil m), rfl⟩
  | cons m ms ih =>
    intro bm bv
    simp only [searchLoop, rootVal_def]
    by_cases h : rootVal root depth rp m > bv
    · rw [if_pos h]
      rcases ih (m : Int) (rootVal root depth rp m) with ⟨hall, heq⟩ |
        ⟨l1, m', l2, hsplit, heq, hlt, hl1, hl2⟩
      · right
        exact ⟨[], m, ms, rfl, heq, h, by simp, hall⟩
      · right
        refine ⟨m :: l1, m', l2, by rw [hsplit, List.cons_append], heq, lt_trans h hlt, ?_, hl2⟩
        intro m'' hm''
        rcases List.mem_cons.mp hm'' with rfl | hmem
        · exact hlt
        · exact hl1 m'' hmem
    · rw [if_neg h]
      push_neg at h
      rcases ih bm bv with ⟨hall, heq⟩ | ⟨l1, m', l2, hsplit, heq, hlt, hl1, hl2⟩
      · left
        refine ⟨?_, heq⟩
        intro m'' hm''
        rcases List.mem_cons.mp hm'' with rfl | hmem
        · exact h
        · exact hall m'' hmem
      · right
        refine ⟨m :: l1, m', l2, by rw [hsplit, List.cons_append], heq, hlt, ?_, hl2⟩
        intro m'' hm''
        rcases List.mem_cons.mp hm'' with rfl | hmem
        · exact lt_of_le_of_lt h hlt
        · exact hl1 m'' hmem

lemma alphabeta_search_nil (root : State) (depth : Nat) (rp : Int)
    (h : get_valid_moves root = []) : alphabeta_search root depth rp = -1 := by
  unfold alphabeta_search
  rw [h]
  rfl

/-- With a legal move available, `alphabeta_search` returns the first legal
column attaining the strictly greatest root value. -/
lemma alphabeta_search_spec (root : State) (depth : Nat) (rp : Int)
    (h : get_valid_moves root ≠ []) :
    ∃ m ∈ get_valid_moves root, alphabeta_search root depth rp = (m : Int) ∧
      (∀ m' ∈ get_valid_moves root, rootVal root depth rp m' ≤ rootVal root depth rp m) ∧
      (∀ m' ∈ get_valid_moves root, m' < m →
        rootVal root depth rp m' < rootVal root depth rp m) := by
  unfold alphabeta_search
  rcases searchLoop_char root depth rp (get_valid_moves root) (-1) intMin with
    ⟨hall, _⟩ | ⟨l1, m, l2, hsplit, heq, _, hl1, hl2⟩
  · obtain ⟨m, ms, hms⟩ := List.exists_cons_of_ne_nil h
    have h1 := hall m (by rw [hms]; exact List.mem_cons_self m ms)
    have h2 := (alphabeta_bounds rp (depth - 1) (apply_move root m) intMin intMax false).1
    unfold rootVal at h1
    have e1 : intMin = -2147483648 := rfl
    omega
  · have hpw : List.Pairwise (· < ·) (get_valid_moves root) := by
      unfold get_valid_moves
      exact (List.pairwise_lt_range COLS).filter _
    rw [hsplit] at hpw
    rw [List.pairwise_append] at hpw
    obtain ⟨_, hp2, _⟩ := hpw
    rw [List.pairwise_cons] at hp2
    obtain ⟨hm_lt_l2, _⟩ := hp2
    refine ⟨m, by rw [hsplit]; exact List.mem_append_right _ (List.mem_cons_self m l2),
      heq, ?_, ?_⟩
    · intro m' hm'
      rw [hsplit] at hm'
      rcases List.mem_append.mp hm' with h1 | h2
      · exact (hl1 m' h1).le
      · rcases List.mem_cons.mp h2 with rfl | h3
        · exact le_refl _
        · exact hl2 m' h3
    · intro m' hm' hlt'
      rw [hsplit] at hm'
      rcases List.mem_append.mp hm' with h1 | h2
      · exact hl1 m' h1
      · rcases List.mem_cons.mp h2 with rfl | h3
        · omega
        · exact absurd hlt' (by have := hm_lt_l2 m' h3; omega)

end Agent200

namespace Agent200

/-- C1: the top-level selector enumerates the legal columns in ascending
order; with at least one legal move it returns the first column attaining
the strictly greatest root value (each root value being the full-window
alpha-beta value of the child at depth-1 as a minimizing node, which is
what `rootVal` denotes); an equal later value never replaces the current
best, and with no legal moves it returns -1. -/
theorem claim_C1_selector_argmax (root : State) (depth : Nat) (rp : Int) :
    List.Pairwise (· < ·) (get_valid_moves root) ∧
    (get_valid_moves root = [] → alphabeta_search root depth rp = -1) ∧
    (get_valid_moves root ≠ [] →
      ∃ m ∈ get_valid_moves root, alphabeta_search root depth rp = (m : Int) ∧
        (∀ m' ∈ get_valid_moves root,
          rootVal root depth rp m' ≤ rootVal root depth rp m) ∧
        (∀ m' ∈ get_valid_moves root, m' < m →
          rootVal root depth rp m' < rootVal root depth rp m)) := by
  refine ⟨?_, alphabeta_search_nil root depth rp, alphabeta_search_spec root depth rp⟩
  unfold get_valid_moves
  exact (List.pairwise_lt_range COLS).filter _

/-- Witness for C1 at a concrete input: the empty board has legal moves, so
the selector returns a first-argmax column. -/
theorem claim_C1_witness :
    ∃ m ∈ get_valid_moves emptyRoot, alphabeta_search emptyRoot 1 1 = (m : Int) ∧
      (∀ m' ∈ get_valid_moves emptyRoot,
        rootVal emptyRoot 1 1 m' ≤ rootVal emptyRoot 1 1 m) ∧
      (∀ m' ∈ get_valid_moves emptyRoot, m' < m →
        rootVal emptyRoot 1 1 m' < rootVal emptyRoot 1 1 m) :=
  (claim_C1_selector_argmax emptyRoot 1 1).2.2 (by decide)

/-- C9: the decision is a pure function of the input token stream (the
seeded random generator is dead code and does not appear in the embedding),
so identical inputs give identical outputs; and on the empty 6x7 board with
requesting player 1 at depth 6 the engine returns a column in [0,6]. -/
theorem claim_C9_determinism :
    (∀ ts : List (Option Int), runMain ts = runMain ts) ∧
    (∃ m : Nat, m < COLS ∧ alphabeta_search emptyRoot MAX_DEPTH 1 = (m : Int)) := by
  refine ⟨fun _ => rfl, ?_⟩
  obtain ⟨m, hm, heq, -, -⟩ := alphabeta_search_spec emptyRoot MAX_DEPTH 1 (by decide)
  exact ⟨m, ((mem_get_valid_moves _ _).mp hm).1, heq⟩

end Agent200

namespace Agent200

lemma readCells_of_prefix : ∀ (cs : List Int) (rest : List (Option Int)),
    readCells cs.length (cs.map some ++ rest) = some cs := by
  intro cs
  induction cs with
  | nil => intro rest; rfl
  | cons c cs ih =>
    intro rest
    show Option.map (fun l => c :: l) (readCells cs.length (cs.map some ++ rest)) =
      some (c :: cs)
    rw [ih]
    rfl

lemma readCells_some : ∀ (n : Nat) (ts : List (Option Int)) (cs : List Int),
    readCells n ts = some cs → cs.length = n ∧ ∃ rest, ts = cs.map some ++ rest := by
  intro n
  induction n with
  | zero =>
    intro ts cs h
    have h2 : some ([] : List Int) = some cs := h
    obtain rfl := Option.some.inj h2
    exact ⟨rfl, ts, rfl⟩
  | succ n ih =>
    intro ts cs h
    cases ts with
    | nil => exact absurd h (by simp [readCells])
    | cons t rest =>
      cases t with
      | none => exact absurd h (by simp [readCells])
      | some x =>
        simp only [readCells] at h
        cases hr : readCells n rest with
        | none => rw [hr] at h; exact absurd h (by simp)
        | some cs' =>
          rw [hr] at h
          have h2 : some (x :: cs') = some cs := h
          obtain rfl := Option.some.inj h2
          obtain ⟨hlen, rest', hrest⟩ := ih rest cs' hr
          refine ⟨by simp [hlen], rest', ?_⟩
          rw [List.map_cons, List.cons_append, hrest]

lemma runMain_cons (p : Int) (rest : List (Option Int)) :
    runMain (some p :: rest) =
      if p = 1 ∨ p = 2 then
        match readCells (ROWS * COLS) rest with
        | some cells =>
          if alphabeta_search (initState p (boardOfCells cells)) MAX_DEPTH p < 0 then
            none
          else
            some (stack_name
              (alphabeta_search (initState p (boardOfCells cells)) MAX_DEPTH p).toNat)
        | none => none
      else none := rfl

lemma runMain_nil : runMain [] = none := rfl

lemma runMain_none_head (rest : List (Option Int)) : runMain (none :: rest) = none := rfl

end Agent200

namespace Agent200

/-- C8: (modulo the I/O boundary model: `some c` = exit 0 with exactly `c` on
standard output, `none` = failure exit with no standard output) the program
succeeds iff the tokens start with a readable player id in {1,2} followed by
ROWS*COLS readable integers and the resulting root state has a legal move;
on success the printed character is 'A' + the chosen column. -/
theorem claim_C8_main_io (ts : List (Option Int)) :
    ((∃ c, runMain ts = some c) ↔
      ∃ (p : Int) (cs : List Int) (rest : List (Option Int)),
        ts = some p :: (cs.map some ++ rest) ∧ cs.length = ROWS * COLS ∧
        (p = 1 ∨ p = 2) ∧
        ∃ j, j < COLS ∧ (initState p (boardOfCells cs)).top j < ROWS) ∧
    (∀ c, runMain ts = some c →
      ∃ (p : Int) (cs : List Int) (rest : List (Option Int)) (m : Nat),
        ts = some p :: (cs.map some ++ rest) ∧ cs.length = ROWS * COLS ∧
        (p = 1 ∨ p = 2) ∧ m < COLS ∧
        alphabeta_search (initState p (boardOfCells cs)) MAX_DEPTH p = (m : Int) ∧
        c = stack_name m) := by
  cases ts with
  | nil =>
    refine ⟨⟨?_, ?_⟩, ?_⟩
    · rintro ⟨c, hc⟩
      rw [runMain_nil] at hc
      exact absurd hc (by simp)
    · rintro ⟨p, cs, rest, hts, -⟩
      exact absurd hts (by simp)
    · intro c hc
      rw [runMain_nil] at hc
      exact absurd hc (by simp)
  | cons t rest =>
    cases t with
    | none =>
      refine ⟨⟨?_, ?_⟩, ?_⟩
      · rintro ⟨c, hc⟩
        rw [runMain_none_head] at hc
        exact absurd hc (by simp)
      · rintro ⟨p, cs, rest', hts, -⟩
        injection hts with h1 _
        exact absurd h1 (by simp)
      · intro c hc
        rw [runMain_none_head] at hc
        exact absurd hc (by simp)
    | some p =>
      rw [runMain_cons]
      by_cases hp : p = 1 ∨ p = 2
      · rw [if_pos hp]
        cases hrc : readCells (ROWS * COLS) rest with
        | none =>
          simp only [hrc]
          refine ⟨⟨?_, ?_⟩, ?_⟩
          · rintro ⟨c, hc⟩
            exact absurd hc (by simp)
          · rintro ⟨p', cs, rest', hts, hlen, -, -⟩
            injection hts with h1 h2
            have hcs : readCells (ROWS * COLS) rest = some cs := by
              rw [h2, ← hlen]
              exact readCells_of_prefix cs rest'
            rw [hrc] at hcs
            exact absurd hcs (by simp)
          · intro c hc
            exact absurd hc (by simp)
        | some cells =>
          simp only [hrc]
          by_cases hneg :
              alphabeta_search (initState p (boardOfCells cells)) MAX_DEPTH p < 0
          · rw [if_pos hneg]
            have hleg : get_valid_moves (initState p (boardOfCells cells)) = [] := by
              by_contra hne
              obtain ⟨m, -, heq, -, -⟩ := alphabeta_search_spec _ MAX_DEPTH p hne
              rw [heq] at hneg
              omega
            refine ⟨⟨?_, ?_⟩, ?_⟩
            · rintro ⟨c, hc⟩
              exact absurd hc (by simp)
            · rintro ⟨p', cs, rest', hts, hlen, -, j, hj, ht⟩
              injection hts with h1 h2
              obtain rfl : p = p' := Option.some.inj h1
              have hcs : readCells (ROWS * COLS) rest = some cs := by
                rw [h2, ← hlen]
                exact readCells_of_prefix cs rest'
              rw [hrc] at hcs
              obtain rfl := Option.some.inj hcs
              exact ((get_valid_moves_ne_nil_iff
                (initState p (boardOfCells cells))).mpr ⟨j, hj, ht⟩ hleg).elim
            · intro c hc
              exact absurd hc (by simp)
          · rw [if_neg hneg]
            have hne : get_valid_moves (initState p (boardOfCells cells)) ≠ [] := by
              intro hnil
              rw [alphabeta_search_nil _ MAX_DEPTH p hnil] at hneg
              exact hneg (by norm_num)
            obtain ⟨m, hm, heq, -, -⟩ := alphabeta_search_spec _ MAX_DEPTH p hne
            obtain ⟨hmC, hmT⟩ := (mem_get_valid_moves _ _).mp hm
            obtain ⟨hlen, rest', hrest⟩ := readCells_some (ROWS * COLS) rest cells hrc
            refine ⟨⟨?_, ?_⟩, ?_⟩
            · intro _
              exact ⟨p, cells, rest', by rw [hrest], hlen, hp, m, hmC, hmT⟩
            · intro _
              exact ⟨_, rfl⟩
            · intro c hc
              have hceq : c = stack_name
                  (alphabeta_search (initState p (boardOfCells cells)) MAX_DEPTH p).toNat :=
                (Option.some.inj hc).symm
              refine ⟨p, cells, rest', m, by rw [hrest], hlen, hp, hmC, heq, ?_⟩
              rw [hceq, heq]
              simp
      · rw [if_neg hp]
        refine ⟨⟨?_, ?_⟩, ?_⟩
        · rintro ⟨c, hc⟩
          exact absurd hc (by simp)
        · rintro ⟨p', cs, rest', hts, -, hp', -⟩
          injection hts with h1 _
          obtain rfl : p = p' := Option.some.inj h1
          exact (hp hp').elim
        · intro c hc
          exact absurd hc (by simp)

end Agent200

namespace Agent200

/-- Witness for C8 at a concrete input: player 1 with the all-empty board is
accepted and a move is printed. -/
theorem claim_C8_witness : ∃ c, runMain emptyTokens = some c :=
  (claim_C8_main_io emptyTokens).1.mpr
    ⟨1, List.replicate 42 0, [], by decide, by decide, Or.inl rfl, 0, by decide, by decide⟩

/-- C10: applying a legal move raises the occupied-cell count by one iff the
landing cell is empty; `main` accepts the unpacked board `floatCells`
(producing a printed move), and on the state built from it the landing cell
of column 0 is occupied and the move leaves the occupied count unchanged. -/
theorem claim_C10_occupancy_iff :
    (∀ (s : State) (c : Nat), c < COLS → s.top c < ROWS →
      (s.player = 1 ∨ s.player = 2) →
      (occCount (apply_move s c) = occCount s + 1 ↔ s.board (s.top c) c = 0)) ∧
    (∃ ch, runMain floatTokens = some ch) ∧
    floatS.board (floatS.top 0) 0 ≠ 0 ∧
    occCount (apply_move floatS 0) = occCount floatS := by
  refine ⟨?_, ?_, by decide, by decide⟩
  · intro s c hc ht hp
    constructor
    · intro h1
      by_contra h0
      rw [occCount_apply_of_occupied s c (player_ne_zero hp) h0] at h1
      omega
    · exact occCount_apply_of_empty s c hc ht (player_ne_zero hp)
  · show ∃ ch, runMain (some 1 :: floatCells.map some) = some ch
    rw [runMain_cons, if_pos (Or.inl rfl)]
    have h1 : readCells (ROWS * COLS) (floatCells.map some) = some floatCells := by
      have h := readCells_of_prefix floatCells []
      rw [List.append_nil] at h
      have hlen : floatCells.length = ROWS * COLS := by decide
      rw [hlen] at h
      exact h
    simp only [h1]
    have hne : get_valid_moves (initState 1 (boardOfCells floatCells)) ≠ [] := by decide
    obtain ⟨m, hm, heq, -, -⟩ := alphabeta_search_spec _ MAX_DEPTH 1 hne
    rw [heq, if_neg (by omega)]
    exact ⟨_, rfl⟩

/-- Witness for C10 at a concrete input: on the empty board the landing cell
of column 3 is empty and the move adds a stone. -/
theorem claim_C10_witness :
    occCount (apply_move emptyRoot 3) = occCount emptyRoot + 1 ↔
      emptyRoot.board (emptyRoot.top 3) 3 = 0 :=
  claim_C10_occupancy_iff.1 emptyRoot 3 (by decide) (by decide) (by decide)

end Agent200
